import Mathlib

/-!
# Verification of the AKS_MARKET dashboard scripts

Shallow embedding of the core of `aks_market.py` and `static_data_fetcher.py`:
value coercion (`safe_float`), the retry-with-backoff policy, the fundamentals
derivation, volume statistics, the batch orchestrator, the table sort, the
symbol/industry CSV loader, and the ticker-prefix stripping of the static
fetcher.  Python numbers are modelled by `ℚ` (exact arithmetic; the model does
not track IEEE-754 rounding of `float`, nor the `inf`/`nan`/underscore forms
accepted by the `float()` constructor, which no claim touches).  Raising
callables are modelled by `PyResult`; `except`-handled code returns `Option`.
-/

namespace AksMarket

/-! ## Character/string helpers (models of Python `str` primitives) -/

/-- Model of the outcome of calling a Python function: a returned value or a
raised exception carrying its message string. -/
inductive PyResult (α : Type) where
  | ok (v : α)
  | exn (msg : String)
deriving DecidableEq

/-- Does `hay` start with `needle`?  (List-of-character model.) -/
def charsStart : List Char → List Char → Bool
  | _, [] => true
  | [], _ :: _ => false
  | a :: as, b :: bs => a == b && charsStart as bs

/-- Does `hay` contain `needle` as a contiguous substring?
Model of Python's `needle in hay`. -/
def charsHave : List Char → List Char → Bool
  | [], needle => needle.isEmpty
  | a :: t, needle => charsStart (a :: t) needle || charsHave t needle

/-- Drop leading whitespace characters. -/
def dropLeadWs : List Char → List Char
  | [] => []
  | c :: t => if c.isWhitespace then dropLeadWs t else c :: t

/-- Model of Python `str.strip()`: drop leading and trailing whitespace. -/
def stripChars (cs : List Char) : List Char :=
  (dropLeadWs (dropLeadWs cs).reverse).reverse

/-! ## Model of the Python `float()` constructor on decimal strings -/

/-- Split an optional leading sign; returns (isNegative, rest). -/
def splitSign (cs : List Char) : Bool × List Char :=
  match cs with
  | [] => (false, [])
  | c :: t => if c = '-' then (true, t) else if c = '+' then (false, t) else (false, c :: t)

/-- Take the maximal run of leading decimal digits, as digit values. -/
def takeDigits : List Char → List Nat × List Char
  | [] => ([], [])
  | c :: cs =>
    if c.isDigit then
      let p := takeDigits cs
      ((c.toNat - 48) :: p.1, p.2)
    else ([], c :: cs)

/-- Base-10 value of a digit list (most significant first). -/
def digitsValN (ds : List Nat) : Nat :=
  ds.foldl (fun a d => a * 10 + d) 0

/-- Value of a mantissa with integer digits `ip` and fractional digits `fp`. -/
def mantVal (ip fp : List Nat) : ℚ :=
  (digitsValN ip : ℚ) + (digitsValN fp : ℚ) / 10 ^ fp.length

/-- Parse the optional exponent part and require end of input. -/
def parseExpEnd (neg : Bool) (m : ℚ) (cs : List Char) : Option ℚ :=
  match cs with
  | [] => some (if neg then -m else m)
  | c :: t =>
    if c = 'e' ∨ c = 'E' then
      let es := splitSign t
      let edr := takeDigits es.2
      if edr.1 = [] ∨ edr.2 ≠ [] then none
      else
        some ((if neg then -1 else 1) * m *
          (10 : ℚ) ^ (if es.1 then -(digitsValN edr.1 : ℤ) else (digitsValN edr.1 : ℤ)))
    else none

/-- Model of CPython `float(s)` on a finite decimal/scientific literal:
optional sign, digits with optional decimal point and optional exponent.
(`inf`/`nan` and digit-group underscores are outside the model.) -/
def pyFloatCore (cs : List Char) : Option ℚ :=
  let sn := splitSign cs
  let ipr := takeDigits sn.2
  match ipr.2 with
  | c :: t =>
    if c = '.' then
      let fpr := takeDigits t
      if ipr.1 = [] ∧ fpr.1 = [] then none
      else parseExpEnd sn.1 (mantVal ipr.1 fpr.1) fpr.2
    else
      if ipr.1 = [] then none else parseExpEnd sn.1 (mantVal ipr.1 []) (c :: t)
  | [] => if ipr.1 = [] then none else parseExpEnd sn.1 (mantVal ipr.1 []) []

/-! ## Python values and `safe_float` / `safe_dict` -/

/-- A Python value as seen by this code: `None`, a number, a string, a bool,
or a (string-keyed) dict. -/
inductive PyVal where
  | none
  | int (n : ℤ)
  | float (q : ℚ)
  | str (s : String)
  | bool (b : Bool)
  | dict (d : List (String × PyVal))

/-- Python truthiness of a `PyVal`. -/
def truthy : PyVal → Bool
  | .none => false
  | .int n => n ≠ 0
  | .float q => q ≠ 0
  | .str s => s ≠ ""
  | .bool b => b
  | .dict d => !d.isEmpty

/-- Model of Python `a or b`: `a` if truthy, else `b`. -/
def pyOr (a b : PyVal) : PyVal :=
  if truthy a then a else b

/-- Model of `dict.get(k)` on an association list: the first binding of `k`,
or `None` when absent. -/
def dGetL (d : List (String × PyVal)) (k : String) : PyVal :=
  match d.find? (fun p => p.1 == k) with
  | some p => p.2
  | Option.none => PyVal.none

/-- `safe_dict`: the value if it is a dict, else the empty dict. -/
def safe_dict : PyVal → List (String × PyVal)
  | .dict d => d
  | _ => []

/-- `safe_float` (aks_market.py lines 25-38): coerce a value to an optional
float.  `None` stays absent; ints/floats (and bools, which are ints in
Python) pass through; strings are stripped, blank or `"NA"` strings are
absent, thousands-separator commas are removed, and the result is parsed,
any parse failure (including the string form of a dict) yielding absent. -/
def safe_float (v : PyVal) : Option ℚ :=
  match v with
  | .none => Option.none
  | .int n => some (n : ℚ)
  | .float q => some q
  | .bool b => some (if b then 1 else 0)
  | .dict _ => Option.none
  | .str s =>
    let cs := stripChars s.toList
    if cs = [] ∨ cs.map Char.toUpper = ['N', 'A'] then Option.none
    else pyFloatCore (cs.filter (fun c => ¬ (c = ',')))

/-! ## Retry policy (`retry_with_backoff`, aks_market.py lines 41-61) -/

/-- Is the exception message rate-limit shaped?  Case-insensitive substring
match against the fixed set of the source: `"expecting value"`, `"rate"`,
`"429"`. -/
def isRateLimited (msg : String) : Bool :=
  let s := msg.toList.map Char.toLower
  charsHave s "expecting value".toList || charsHave s "rate".toList ||
    charsHave s "429".toList

/-- Observable behaviour of one run of the retry loop: the returned value
(`none` models Python `None`), the sleep durations in order, and how many
times the callable was invoked. -/
structure RetryTrace (α : Type) where
  result : Option α
  sleeps : List ℚ
  calls : Nat
deriving DecidableEq

/-- The retry loop body, one iteration per unit of `fuel`; `attempt` is the
Python loop variable.  The callable is modelled as a function from the
invocation index to its outcome.  The `Except` codomain records whether an
exception escapes the loop (the source's `except Exception` catches all, so
no branch produces `.error`). -/
def retryAux (func : Nat → PyResult α) (maxR : Nat) (base : ℚ) :
    Nat → Nat → Except String (RetryTrace α)
  | 0, _ => .ok ⟨Option.none, [], 0⟩
  | fuel + 1, attempt =>
    match func attempt with
    | .ok v => .ok ⟨some v, [], 1⟩
    | .exn e =>
      if isRateLimited e then
        if attempt < maxR - 1 then
          match retryAux func maxR base fuel (attempt + 1) with
          | .ok t => .ok ⟨t.result, base * 2 ^ attempt :: t.sleeps, t.calls + 1⟩
          | .error msg => .error msg
        else .ok ⟨Option.none, [], 1⟩
      else .ok ⟨Option.none, [], 1⟩

/-- `retry_with_backoff(func, symbol, max_retries, base_delay)`:
run the loop `for attempt in range(max_retries)`. -/
def retry_with_backoff (func : Nat → PyResult α) (maxR : Nat) (base : ℚ) :
    Except String (RetryTrace α) :=
  retryAux func maxR base maxR 0

/-! ## Fundamentals (`get_fundamentals`, aks_market.py lines 114-160) -/

/-- Round-half-to-even of a rational to an integer (exact-arithmetic model of
Python's `round`). -/
def roundHalfEven (q : ℚ) : ℤ :=
  let f := q.floor
  let r := q - (f : ℚ)
  if 2 * r < 1 then f
  else if 1 < 2 * r then f + 1
  else if f % 2 = 0 then f else f + 1

/-- Model of Python `round(q, 2)`. -/
def pyRound2 (q : ℚ) : ℚ :=
  (roundHalfEven (q * 100) : ℚ) / 100

/-- The coerced P/E of a quote record: `safe_float(meta.get("pdSymbolPe") or
meta.get("pdSectorPe"))` (line 125). -/
def fundPe (d : List (String × PyVal)) : Option ℚ :=
  let meta := safe_dict (dGetL d "metadata")
  safe_float (pyOr (dGetL meta "pdSymbolPe") (dGetL meta "pdSectorPe"))

/-- The coerced last price: `safe_float(price_info.get("lastPrice") or
price_info.get("close"))` (line 126). -/
def fundLast (d : List (String × PyVal)) : Option ℚ :=
  let price_info := safe_dict (dGetL d "priceInfo")
  safe_float (pyOr (dGetL price_info "lastPrice") (dGetL price_info "close"))

/-- The coerced issued-shares value (lines 136-137). -/
def fundIssuedF (d : List (String × PyVal)) : Option ℚ :=
  let sec_info := safe_dict (dGetL d "securityInfo")
  safe_float (pyOr (pyOr (dGetL sec_info "issuedSize") (dGetL sec_info "issuedShares"))
    (dGetL sec_info "issuedCapital"))

/-- EPS derivation (lines 128-133): `last_price / pe` when both are present
and `pe != 0`, else absent. -/
def epsOf (pe lp : Option ℚ) : Option ℚ :=
  match pe, lp with
  | some p, some l => if p ≠ 0 then some (l / p) else Option.none
  | _, _ => Option.none

/-- The record returned by `get_fundamentals` (its dict of line 147-156). -/
structure Fundamentals where
  pe : Option ℚ
  eps : Option ℚ
  marketCap : Option ℚ
  sector : PyVal
  w52High : PyVal
  w52Low : PyVal
  priceInfo : List (String × PyVal)
  lastPrice : Option ℚ

/-- The fundamentals record built from a (truthy) quote record `d`. -/
def mkFund (d : List (String × PyVal)) : Fundamentals :=
  let price_info := safe_dict (dGetL d "priceInfo")
  let industry := safe_dict (dGetL d "industryInfo")
  let pe := fundPe d
  let last_price := fundLast d
  let eps := epsOf pe last_price
  let issued_f := fundIssuedF d
  let mcap : Option ℚ :=
    match issued_f, last_price with
    | some i, some l => some (i * l)
    | _, _ => Option.none
  let sector := pyOr (dGetL industry "industry") (dGetL industry "sector")
  let week := safe_dict (dGetL price_info "weekHighLow")
  { pe := pe.map pyRound2
    eps := eps.map pyRound2
    marketCap := mcap.map pyRound2
    sector := pyOr sector (.str "N/A")
    w52High := dGetL week "max"
    w52Low := dGetL week "min"
    priceInfo := price_info
    lastPrice := last_price }

/-- `get_fundamentals`: absent when the consolidated NSE data is absent or
falsy (`if not data`), else the derived record. -/
def get_fundamentals (data : Option (List (String × PyVal))) : Option Fundamentals :=
  match data with
  | Option.none => Option.none
  | some [] => Option.none
  | some (p :: d) => some (mkFund (p :: d))

/-! ## Volume statistics (`get_volume_stats`, aks_market.py lines 202-247) -/

/-- The three fields returned by `_fetch_volume`. -/
structure VolStats where
  avg : Option ℚ
  today : Option ℚ
  changePct : Option ℚ
deriving DecidableEq

/-- A provider history call: an exception, or a frame whose `Volume` column is
either missing (`none`) or a list of values. -/
abbrev HistCall := Except String (Option (List ℚ))

/-- The `avg_vol` local of `_fetch_volume` (lines 209-215): the mean of the
30-day volume column, when the call succeeded and the column is nonempty. -/
def volAvg (h30 : HistCall) : Option ℚ :=
  match h30 with
  | .ok (some l) => if l = [] then Option.none else some (l.sum / (l.length : ℚ))
  | _ => Option.none

/-- The `todays_vol` local (lines 217-228): the sum of the intraday volume
column; the 1-day daily history is consulted only in the `except` handler of
the intraday attempt, taking the column's last entry. -/
def volToday (intra daily : HistCall) : Option ℚ :=
  match intra with
  | .ok (some l) => if l = [] then Option.none else some l.sum
  | .ok Option.none => Option.none
  | .error _ =>
    match daily with
    | .ok (some l) => if l = [] then Option.none else l.getLast?
    | _ => Option.none

/-- The `vol_change_pct` local (lines 230-235): set only when `avg_vol` is
truthy (present and nonzero) and `todays_vol` is present. -/
def volPct (avg today : Option ℚ) : Option ℚ :=
  match avg, today with
  | some a, some t => if a = 0 then Option.none else some ((t - a) / a * 100)
  | _, _ => Option.none

/-- The dict returned by `_fetch_volume`, parameterised by the outcomes of
the three provider calls: the 30-day daily history, the 1-day intraday
(1-minute) history, and the 1-day daily history. -/
def fetch_volume (h30 intra daily : HistCall) : VolStats :=
  ⟨volAvg h30, volToday intra daily, volPct (volAvg h30) (volToday intra daily)⟩

/-! ## Batch orchestrator (`fetch_stocks_data_for_industry`, lines 256-336) -/

/-- Fuel-driven slicing loop; with `fuel ≥ l.length` and `bs ≥ 1` it produces
the `symbols[i : i + bs]` slices of `for i in range(0, len, bs)`. -/
def chunksF (bs : Nat) : Nat → List α → List (List α)
  | _, [] => []
  | 0, _ :: _ => []
  | fuel + 1, x :: xs => ((x :: xs).take bs) :: chunksF bs fuel ((x :: xs).drop bs)

/-- `symbols[i : i + bs]` slices, mirroring `for i in range(0, len, bs)`.
For `bs = 0` Python's `range` raises; the model returns no batches. -/
def chunks (bs : Nat) (l : List α) : List (List α) :=
  if bs = 0 then [] else chunksF bs l.length l

/-- The composite stock row built by `_fetch_one` (lines 287-307). -/
structure StockData where
  symbol : String
  stockName : String
  industries : PyVal
  lastClose : Option ℚ
  openPrice : Option ℚ
  current : Option ℚ
  change : Option ℚ
  changePct : Option ℚ
  histPrice : Option ℚ
  histChange : Option ℚ
  histChangePct : Option ℚ
  avgVolume : Option ℚ
  todayVolume : Option ℚ
  volChangePct : Option ℚ
  marketCap : Option ℚ
  pe : Option ℚ
  eps : Option ℚ
  w52High : PyVal
  w52Low : PyVal

/-- `_fetch_one(symbol)` (lines 260-311), parameterised by the per-symbol
accessors: `nse` models `get_nse_data`, `vol` models `get_volume_stats`, and
`hist` models `get_historical_comparison`.  Returns `none` when the
fundamentals are absent. -/
def fetch_one (nse : String → Option (List (String × PyVal))) (vol : String → VolStats)
    (hist : String → Option ℚ × Option ℚ × Option ℚ) (symbol : String) : Option StockData :=
  match get_fundamentals (nse symbol) with
  | Option.none => Option.none
  | some f =>
    let pi := f.priceInfo
    let last_price := f.lastPrice
    let prev_close := safe_float (pyOr (dGetL pi "previousClose") (dGetL pi "close"))
    let today_open := safe_float (dGetL pi "open")
    let pc : Option ℚ × Option ℚ :=
      match last_price, prev_close with
      | some lp, some pcl =>
        (some (lp - pcl), if pcl ≠ 0 then some ((lp - pcl) / pcl * 100) else Option.none)
      | _, _ => (Option.none, Option.none)
    some
      { symbol := symbol
        stockName := symbol
        industries := f.sector
        lastClose := prev_close
        openPrice := today_open
        current := last_price
        change := pc.1
        changePct := pc.2
        histPrice := (hist symbol).1
        histChange := (hist symbol).2.1
        histChangePct := (hist symbol).2.2
        avgVolume := (vol symbol).avg
        todayVolume := (vol symbol).today
        volChangePct := (vol symbol).changePct
        marketCap := f.marketCap
        pe := f.pe
        eps := f.eps
        w52High := f.w52High
        w52Low := f.w52Low }

/-- Process the batches in order: batch `j` is handed to a worker pool whose
completion order is modelled by `comp j`; successful rows are appended in
completion order; a sleep happens after each batch that is not the last
(`if i + batch_size < len(symbols)`). -/
def goBatches (f : String → Option ρ) (comp : Nat → List String → List String) :
    Nat → List (List String) → List ρ × Nat
  | _, [] => ([], 0)
  | j, b :: rest =>
    let r := goBatches f comp (j + 1) rest
    ((comp j b).filterMap f ++ r.1, (if rest = [] then 0 else 1) + r.2)

/-- `fetch_stocks_data_for_industry`: split into batches of `bs`, fetch each
batch with the pool, collect successes, sleep between batches.  Returns the
collected rows and the number of inter-batch sleeps performed. -/
def fetch_stocks_data_for_industry (f : String → Option ρ)
    (comp : Nat → List String → List String) (bs : Nat) (symbols : List String) :
    List ρ × Nat :=
  goBatches f comp 0 (chunks bs symbols)

/-! ## Table sort (`generate_table`, aks_market.py lines 687-694) -/

/-- The Python sort key `(x.get(k) is None, x.get(k) if x.get(k) is not None
else 0)`. -/
def sortKey (v : Option ℚ) : Bool × ℚ :=
  (v.isNone, v.getD 0)

/-- Lexicographic `≤` on the sort-key tuples (`False < True` on booleans,
numeric order on the second component), as Python compares them. -/
def tupLe (a b : Bool × ℚ) : Bool :=
  (!a.1 && b.1) || (a.1 == b.1 && decide (a.2 ≤ b.2))

/-- Stable insertion: `x` goes before the first element it is `le` to. -/
def insSorted (le : α → α → Bool) (x : α) : List α → List α
  | [] => [x]
  | y :: ys => if le x y then x :: y :: ys else y :: insSorted le x ys

/-- Stable sort w.r.t. a total boolean preorder: the unique output that is
sorted and keeps elements with equal keys in input order, i.e. the semantics
of Python's `sorted`. -/
def stableSort (le : α → α → Bool) : List α → List α
  | [] => []
  | x :: xs => insSorted le x (stableSort le xs)

/-- The row comparison used by `generate_table`: ascending compares the key
tuples directly; `reverse=True` (descending) is the stable sort w.r.t. the
flipped comparison. -/
def rowLe (desc : Bool) (x y : Nat × Option ℚ) : Bool :=
  if desc then tupLe (sortKey y.2) (sortKey x.2) else tupLe (sortKey x.2) (sortKey y.2)

/-- The sort performed by `generate_table` on rows `(identity, value of the
sort column)`: `sorted(rows, key=..., reverse=(direction == "desc"))`. -/
def generateTableSort (desc : Bool) (rows : List (Nat × Option ℚ)) :
    List (Nat × Option ℚ) :=
  stableSort (rowLe desc) rows

/-! ## Symbol/industry CSV loader (`load_symbols_with_industries`, lines 67-92)
and the `initialize_data` callback (lines 504-524) -/

/-- Outcome of `pd.read_csv("nifty100_with_industries.csv")`: the
(symbol, industry) rows, a `FileNotFoundError`, or another exception. -/
inductive CsvRead where
  | found (rows : List (String × String))
  | fileNotFound
  | otherError (msg : String)

/-- Insert one binding into a dict, later values overwriting earlier ones
(Python `dict(zip(..., ...))`). -/
def dictInsert (d : List (String × String)) (kv : String × String) :
    List (String × String) :=
  if d.any (fun p => p.1 == kv.1) then
    d.map (fun p => if p.1 == kv.1 then (p.1, kv.2) else p)
  else d ++ [kv]

/-- `dict(zip(df["symbol"], df["industry"]))`. -/
def dictOfPairs (rows : List (String × String)) : List (String × String) :=
  rows.foldl dictInsert []

/-- Result of `load_symbols_with_industries`: the mapping, and whether the
missing-file condition was reported (the `FileNotFoundError` branch's
message). -/
structure LoadResult where
  mapping : List (String × String)
  reportedMissing : Bool
deriving DecidableEq

/-- `load_symbols_with_industries`: the mapping on success; on
`FileNotFoundError` report the condition and return an empty mapping; on any
other error return an empty mapping. -/
def load_symbols_with_industries (r : CsvRead) : LoadResult :=
  match r with
  | .found rows => ⟨dictOfPairs rows, false⟩
  | .fileNotFound => ⟨[], true⟩
  | .otherError _ => ⟨[], false⟩

/-- The `initialize_data` callback: with an empty mapping it returns empty
store data and an empty dropdown-options list (the UI's no-data state);
otherwise it returns the mapping and `"ALL"` followed by the sorted distinct
industries other than `"N/A"`. -/
def initialize_data (m : List (String × String)) :
    List (String × String) × List String :=
  if m = [] then ([], [])
  else
    (m, "ALL" ::
      stableSort (fun a b => decide (a ≤ b)) (((m.map Prod.snd).dedup).filter (· ≠ "N/A")))

/-! ## Static data fetcher (`load_and_enrich_tickers`,
static_data_fetcher.py lines 77-84) -/

/-- Model of `str.replace("NSE:", "", regex=False)`: remove the
non-overlapping occurrences of `"NSE:"`, left to right. -/
def stripNSEall : List Char → List Char
  | 'N' :: 'S' :: 'E' :: ':' :: t => stripNSEall t
  | c :: t => c :: stripNSEall t
  | [] => []

/-- The derived `symbol` column value for one ticker:
`df["ticker"].str.replace("NSE:", "", regex=False)`. -/
def derivedSymbol (ticker : String) : String :=
  String.mk (stripNSEall ticker.toList)

/-! ## Decimal renderer (specification side of the `safe_float` claim) -/

/-- The character of a decimal digit. -/
def digChar : Fin 10 → Char
  | 0 => '0' | 1 => '1' | 2 => '2' | 3 => '3' | 4 => '4'
  | 5 => '5' | 6 => '6' | 7 => '7' | 8 => '8' | 9 => '9'

/-- A plain decimal string `[-]ip.fp` from digit lists. -/
def decString (neg : Bool) (ip fp : List (Fin 10)) : String :=
  String.mk ((if neg then ['-'] else []) ++ ip.map digChar ++ '.' :: fp.map digChar)

/-- The rational value denoted by such a decimal string. -/
def decVal (neg : Bool) (ip fp : List (Fin 10)) : ℚ :=
  let m := mantVal (ip.map Fin.val) (fp.map Fin.val)
  if neg then -m else m

/-! # Theorems -/

/-! ## C1: `None` placement of the table sort -/

/-- The rows of the spec's example: column values `[5, None, 3, None, 1]`,
tagged with their original positions. -/
def c1Rows : List (Nat × Option ℚ) :=
  [(0, some 5), (1, Option.none), (2, some 3), (3, Option.none), (4, some 1)]

/-- C1: at the failing input, the rows with values `[5, None, 3, None, 1]`:
ascending sort behaves as claimed (`[1, 3, 5, None, None]`, the two `None`
rows in original relative order), but descending sort places the two `None`
rows FIRST (`[None, None, 5, 3, 1]`), not last — `reverse=True` also reverses
the `is None` component of the sort key, contradicting the claim and the
source's own comment `# Sort with None values at the end`. -/
theorem claim_C1_sort_none_placement :
    generateTableSort false c1Rows =
      [(4, some 1), (2, some 3), (0, some 5), (1, Option.none), (3, Option.none)]
    ∧ generateTableSort true c1Rows =
      [(1, Option.none), (3, Option.none), (0, some 5), (2, some 3), (4, some 1)]
    ∧ generateTableSort true c1Rows ≠
      [(0, some 5), (2, some 3), (4, some 1), (1, Option.none), (3, Option.none)] := by
  refine ⟨by decide, by decide, by decide⟩

/-! ## C7: volume statistics fallback -/

/-- C7 counterexample: when the 30-day history succeeds but both the intraday
and the daily attempts raise, `avg_volume` is still present (it is derived
from the independent 30-day call), refuting "if both the intraday and daily
attempts fail, all three returned fields are absent". -/
theorem claim_C7_counterexample :
    fetch_volume (.ok (some [100])) (.error "boom") (.error "boom2") =
      ⟨some 100, Option.none, Option.none⟩
    ∧ (fetch_volume (.ok (some [100])) (.error "boom") (.error "boom2")).avg ≠
      Option.none := by
  constructor
  · show VolStats.mk _ _ _ = _
    simp only [volAvg, volToday, volPct]
    norm_num
  · show volAvg (.ok (some [100])) ≠ Option.none
    simp [volAvg]

/-- C7 (amended): today's volume is attempted at intraday granularity first
and the daily attempt is consulted only when the intraday attempt raises
(an intraday success makes the result independent of the daily outcome);
when both the intraday and the daily attempts raise, `todays_volume` and
`volume_change_pct` are absent, while `avg_volume` is exactly what the
independent 30-day attempt yields. -/
theorem claim_C7_volume_fallback :
    (∀ (h30 : HistCall) (fr : Option (List ℚ)) (d d' : HistCall),
        fetch_volume h30 (.ok fr) d = fetch_volume h30 (.ok fr) d')
    ∧ (∀ (h30 : HistCall) (e : String) (l : List ℚ), l ≠ [] →
        (fetch_volume h30 (.error e) (.ok (some l))).today = l.getLast?)
    ∧ (∀ (h30 : HistCall) (e e' : String),
        (fetch_volume h30 (.error e) (.error e')).today = Option.none
        ∧ (fetch_volume h30 (.error e) (.error e')).changePct = Option.none
        ∧ (fetch_volume h30 (.error e) (.error e')).avg = volAvg h30) := by
  refine ⟨fun h30 fr d d' => by cases fr <;> rfl, fun h30 e l hl => ?_,
    fun h30 e e' => ⟨rfl, ?_, rfl⟩⟩
  · show volToday (.error e) (.ok (some l)) = l.getLast?
    simp [volToday, hl]
  · show volPct (volAvg h30) (volToday (.error e) (.error e')) = Option.none
    rw [show volToday (.error e) (.error e') = Option.none from rfl]
    cases volAvg h30 <;> rfl

/-- C7 witness: the amended theorem applied at a concrete nonempty daily
column. -/
theorem claim_C7_volume_fallback_witness :
    (fetch_volume (.ok (some [100])) (.error "x") (.ok (some [7, 9]))).today =
      some 9 := by
  have h := claim_C7_volume_fallback.2.1 (.ok (some [100])) "x" [7, 9] (by decide)
  rw [h]
  rfl

/-! ## C8: missing static input file -/

/-- C8: when reading the pre-generated CSV raises `FileNotFoundError`,
`load_symbols_with_industries` reports the missing-file condition and
returns an empty mapping, and the `initialize_data` callback consequently
produces empty store data and an empty dropdown (the UI's no-data state). -/
theorem claim_C8_missing_file :
    load_symbols_with_industries .fileNotFound = ⟨[], true⟩
    ∧ initialize_data (load_symbols_with_industries .fileNotFound).mapping =
      ([], []) := by
  exact ⟨rfl, rfl⟩

/-! ## C9: ticker prefix stripping -/

/-- If `"NSE:"` does not occur in `cs`, the replacement leaves `cs`
unchanged. -/
theorem stripNSEall_no_occurrence (cs : List Char)
    (h : charsHave cs ['N', 'S', 'E', ':'] = false) : stripNSEall cs = cs := by
  induction cs using stripNSEall.induct with
  | case1 t _ih =>
    simp [charsHave, charsStart] at h
  | case2 c t hne ih =>
    rw [charsHave] at h
    rcases Bool.or_eq_false_iff.mp h with ⟨_h1, h2⟩
    have hstep : stripNSEall (c :: t) = c :: stripNSEall t := by
      conv_lhs => rw [stripNSEall.eq_def]
      split
      · rename_i t1 heq
        injection heq with hc ht
        exact (hne t1 hc ht).elim
      · rename_i c2 t2 _hg heq
        injection heq with hc ht
        rw [hc, ht]
      · rename_i heq
        exact absurd heq (by simp)
    rw [hstep, ih h2]
  | case3 => rfl

/-- C9 counterexample: the ticker `"BSE:TCS"` is formatted
`EXCHANGE:SYMBOL`, but the derived symbol keeps the `BSE:` prefix — the code
removes only the literal `"NSE:"`. -/
theorem claim_C9_counterexample :
    derivedSymbol "BSE:TCS" = "BSE:TCS" ∧ derivedSymbol "BSE:TCS" ≠ "TCS" := by
  exact ⟨by decide, by decide⟩

/-- C9 (amended): for tickers of the form `NSE:SYMBOL` where `SYMBOL`
contains no further occurrence of `"NSE:"`, the derived symbol column equals
`SYMBOL`; other exchange prefixes are left in place. -/
theorem claim_C9_nse_prefix_stripped (s : String)
    (h : charsHave s.toList ['N', 'S', 'E', ':'] = false) :
    derivedSymbol ("NSE:" ++ s) = s := by
  unfold derivedSymbol
  have h1 : ("NSE:" ++ s).toList = 'N' :: 'S' :: 'E' :: ':' :: s.toList := by
    cases s
    rfl
  rw [h1]
  rw [show stripNSEall ('N' :: 'S' :: 'E' :: ':' :: s.toList) =
      stripNSEall s.toList from rfl]
  rw [stripNSEall_no_occurrence s.toList h]
  cases s
  rfl

/-- C9 witness: the amended theorem at the ticker `"NSE:TCS"`. -/
theorem claim_C9_nse_prefix_stripped_witness :
    charsHave "TCS".toList ['N', 'S', 'E', ':'] = false
    ∧ derivedSymbol ("NSE:" ++ "TCS") = "TCS" :=
  ⟨by decide, claim_C9_nse_prefix_stripped "TCS" (by decide)⟩

/-! ## C4: fundamentals derivation -/

/-- `roundHalfEven` at a value whose fractional part is below one half. -/
theorem roundHalfEven_of_lt (q : ℚ) (z : ℤ) (h1 : ⌊q⌋ = z) (h2 : q - z < 1 / 2) :
    roundHalfEven q = z := by
  unfold roundHalfEven
  rw [show q.floor = ⌊q⌋ from rfl, h1]
  rw [if_pos (by linarith)]

/-- `roundHalfEven` fixes integers. -/
theorem roundHalfEven_intCast (n : ℤ) : roundHalfEven (n : ℚ) = n :=
  roundHalfEven_of_lt _ n (Int.floor_intCast n) (by norm_num)

/-- The record of the C4 counterexample: one issued share and a last price of
`0.001`. -/
def c4CexRecord : List (String × PyVal) :=
  [("securityInfo", .dict [("issuedSize", .int 1)]),
   ("priceInfo", .dict [("lastPrice", .float (1 / 1000))])]

/-- C4 counterexample: with issued shares `1` and last price `0.001` both
present, the returned market cap is `round(0.001, 2) = 0`, not the exact
product `0.001` — `get_fundamentals` rounds the product to two decimal
places before returning it. -/
theorem claim_C4_counterexample :
    fundIssuedF c4CexRecord = some 1
    ∧ fundLast c4CexRecord = some (1 / 1000)
    ∧ (get_fundamentals (some c4CexRecord)).map Fundamentals.marketCap =
        some (some 0)
    ∧ (0 : ℚ) ≠ 1 * (1 / 1000) := by
  have hi : fundIssuedF c4CexRecord = some 1 := by
    simp only [fundIssuedF, c4CexRecord, safe_dict, dGetL, List.find?, pyOr, truthy,
      safe_float]
    norm_num
  have hl : fundLast c4CexRecord = some (1 / 1000) := by
    simp only [fundLast, c4CexRecord, safe_dict, dGetL, List.find?, pyOr, truthy,
      safe_float]
    norm_num
  refine ⟨hi, hl, ?_, by norm_num⟩
  rw [show get_fundamentals (some c4CexRecord) = some (mkFund c4CexRecord) from rfl]
  rw [Option.map_some']
  have hmc : (mkFund c4CexRecord).marketCap = some (pyRound2 (1 * (1 / 1000))) := by
    simp only [mkFund]
    rw [hi, hl]
    rfl
  rw [hmc]
  have hfloor : ⌊(1 * (1 / 1000) * 100 : ℚ)⌋ = 0 := by
    rw [Int.floor_eq_iff]
    norm_num
  rw [show pyRound2 (1 * (1 / 1000)) =
      (roundHalfEven (1 * (1 / 1000) * 100) : ℚ) / 100 from rfl]
  rw [roundHalfEven_of_lt _ 0 hfloor (by norm_num)]
  norm_num

/-- C4 (amended): for every truthy quote record, `get_fundamentals` returns a
record in which (a) a zero coerced P/E makes the derived EPS absent whatever
the last price is, (b) an absent issued-shares value makes the market cap
absent, and (c) when both issued shares and last price are present the
returned market cap is their exact product rounded to two decimal places
(half-to-even) — so it equals the exact product only when that product has
at most two decimals. -/
theorem claim_C4_fundamentals_derivation (d : List (String × PyVal)) (hd : d ≠ []) :
    get_fundamentals (some d) = some (mkFund d)
    ∧ (fundPe d = some 0 → (mkFund d).eps = Option.none)
    ∧ (fundIssuedF d = Option.none → (mkFund d).marketCap = Option.none)
    ∧ (∀ i lp : ℚ, fundIssuedF d = some i → fundLast d = some lp →
        (mkFund d).marketCap = some (pyRound2 (i * lp))) := by
  refine ⟨?_, ?_, ?_, ?_⟩
  · cases d with
    | nil => exact absurd rfl hd
    | cons p rest => rfl
  · intro h
    simp only [mkFund]
    rw [h]
    cases hfl : fundLast d with
    | none => rfl
    | some l => simp [epsOf]
  · intro h
    simp only [mkFund]
    rw [h]
    cases fundLast d <;> rfl
  · intro i lp h1 h2
    simp only [mkFund]
    rw [h1, h2]
    rfl

/-- The record of the C4 witness: `pdSymbolPe = "0"` (truthy string coercing
to zero), two issued shares, last price `10`. -/
def c4WitnessRecord : List (String × PyVal) :=
  [("metadata", .dict [("pdSymbolPe", .str "0")]),
   ("securityInfo", .dict [("issuedSize", .int 2)]),
   ("priceInfo", .dict [("lastPrice", .float 10)])]

/-- C4 witness: the amended theorem applied at a concrete record with a zero
P/E, issued shares `2` and last price `10`. -/
theorem claim_C4_fundamentals_derivation_witness :
    (get_fundamentals (some c4WitnessRecord)).map Fundamentals.eps =
      some Option.none
    ∧ (get_fundamentals (some c4WitnessRecord)).map Fundamentals.marketCap =
      some (some 20) := by
  obtain ⟨hf, h1, _h2, h3⟩ :=
    claim_C4_fundamentals_derivation c4WitnessRecord (by simp [c4WitnessRecord])
  have hpe : fundPe c4WitnessRecord = some 0 := by
    simp only [fundPe, c4WitnessRecord, safe_dict, dGetL, List.find?, pyOr, truthy,
      safe_float]
    simp +decide [stripChars, dropLeadWs, pyFloatCore, splitSign, takeDigits,
      parseExpEnd, mantVal, digitsValN, String.toList]
  have hiss : fundIssuedF c4WitnessRecord = some 2 := by
    simp only [fundIssuedF, c4WitnessRecord, safe_dict, dGetL, List.find?, pyOr, truthy,
      safe_float]
    norm_num
  have hlast : fundLast c4WitnessRecord = some 10 := by
    simp only [fundLast, c4WitnessRecord, safe_dict, dGetL, List.find?, pyOr, truthy,
      safe_float]
    norm_num
  have hround : pyRound2 ((2 : ℚ) * 10) = 20 := by
    rw [show pyRound2 ((2 : ℚ) * 10) =
        (roundHalfEven ((2 : ℚ) * 10 * 100) : ℚ) / 100 from rfl]
    rw [show ((2 : ℚ) * 10 * 100) = ((2000 : ℤ) : ℚ) by norm_num]
    rw [roundHalfEven_intCast]
    norm_num
  refine ⟨?_, ?_⟩
  · rw [hf, Option.map_some', h1 hpe]
  · rw [hf, Option.map_some', h3 2 10 hiss hlast, hround]

/-! ## C2 and C3: the retry policy -/

/-- The outcome is a raised exception with a rate-limit-shaped message. -/
def raisesRL (r : PyResult α) : Prop :=
  ∃ m, r = .exn m ∧ isRateLimited m = true

/-- Prepend the attempt-0 delay to the later delays. -/
theorem cons_pow_range (base : ℚ) (attempt K : Nat) :
    base * 2 ^ attempt ::
        (List.range K).map (fun i => base * 2 ^ (attempt + 1 + i)) =
      (List.range (K + 1)).map (fun i => base * 2 ^ (attempt + i)) := by
  rw [List.range_succ_eq_map, List.map_cons, List.map_map]
  refine congrArg₂ _ (by rw [Nat.add_zero]) ?_
  refine List.map_congr_left fun i _ => ?_
  show base * 2 ^ (attempt + 1 + i) = base * 2 ^ (attempt + (i + 1))
  congr 1
  congr 1
  omega

/-- Behaviour of the retry loop while the callable keeps raising
rate-limit-shaped errors for `K` attempts and then succeeds, all within the
attempt budget. -/
theorem retryAux_success (func : Nat → PyResult α) (maxR : Nat) (base : ℚ) (v : α) :
    ∀ K attempt fuel : Nat,
      (∀ i, i < K → raisesRL (func (attempt + i))) →
      func (attempt + K) = .ok v →
      attempt + K < maxR →
      attempt + fuel = maxR →
      retryAux func maxR base fuel attempt =
        .ok ⟨some v, (List.range K).map (fun i => base * 2 ^ (attempt + i)), K + 1⟩ := by
  intro K
  induction K with
  | zero =>
    intro attempt fuel _hK hv hlt hfuel
    obtain ⟨f, rfl⟩ : ∃ f, fuel = f + 1 := ⟨fuel - 1, by omega⟩
    rw [Nat.add_zero] at hv
    simp only [retryAux]
    rw [hv]
    simp
  | succ K ih =>
    intro attempt fuel hK hv hlt hfuel
    obtain ⟨f, rfl⟩ : ∃ f, fuel = f + 1 := ⟨fuel - 1, by omega⟩
    obtain ⟨m, hm, hrl⟩ := hK 0 (Nat.succ_pos K)
    rw [Nat.add_zero] at hm
    simp only [retryAux]
    rw [hm]
    simp only [hrl, if_true]
    rw [if_pos (show attempt < maxR - 1 by omega)]
    rw [ih (attempt + 1) f
      (fun i hi => by
        have h := hK (i + 1) (by omega)
        rwa [show attempt + (i + 1) = attempt + 1 + i by omega] at h)
      (by rwa [show attempt + 1 + K = attempt + (K + 1) by omega])
      (by omega) (by omega)]
    show Except.ok (⟨some v, base * 2 ^ attempt :: _, _⟩ : RetryTrace α) = _
    rw [cons_pow_range]

/-- Behaviour of the retry loop when every remaining attempt raises a
rate-limit-shaped error: the budget is exhausted and the result is absent. -/
theorem retryAux_exhaust (func : Nat → PyResult α) (maxR : Nat) (base : ℚ) :
    ∀ fuel attempt : Nat,
      (∀ i, attempt ≤ i → i < maxR → raisesRL (func i)) →
      attempt + fuel = maxR →
      fuel ≠ 0 →
      retryAux func maxR base fuel attempt =
        .ok ⟨Option.none,
          (List.range (maxR - 1 - attempt)).map (fun i => base * 2 ^ (attempt + i)),
          fuel⟩ := by
  intro fuel
  induction fuel with
  | zero => intro _ _ _ hne; exact absurd rfl hne
  | succ f ih =>
    intro attempt hall hfuel _
    obtain ⟨m, hm, hrl⟩ := hall attempt le_rfl (by omega)
    simp only [retryAux]
    rw [hm]
    simp only [hrl, if_true]
    by_cases hc : attempt < maxR - 1
    · rw [if_pos hc]
      rw [ih (attempt + 1) (fun i hi1 hi2 => hall i (by omega) hi2) (by omega)
        (by omega)]
      show Except.ok (⟨Option.none, base * 2 ^ attempt :: _, _⟩ : RetryTrace α) = _
      rw [show maxR - 1 - attempt = (maxR - 1 - (attempt + 1)) + 1 by omega]
      rw [cons_pow_range]
    · rw [if_neg hc]
      have hf0 : f = 0 := by omega
      have hatt : maxR - 1 - attempt = 0 := by omega
      rw [hf0, hatt]
      simp

/-- C2: for a callable that raises rate-limit-shaped errors on its first `K`
invocations and then returns `v`: with `max_retries > K` the policy returns
`v` after `K + 1` invocations, having slept exactly `K` times with delays
`base * 2 ^ attempt` for `attempt = 0, …, K - 1`, which are strictly
increasing when `base > 0`; with `1 ≤ max_retries ≤ K` it returns absent
after `max_retries` invocations. -/
theorem claim_C2_retry_rate_limited (func : Nat → PyResult α) (K : Nat) (v : α)
    (maxR : Nat) (base : ℚ)
    (hK : ∀ i, i < K → ∃ m, func i = .exn m ∧ isRateLimited m = true)
    (hv : func K = .ok v) :
    (K < maxR →
      retry_with_backoff func maxR base =
        .ok ⟨some v, (List.range K).map (fun i => base * 2 ^ i), K + 1⟩
      ∧ (0 < base →
          ((List.range K).map (fun i => base * 2 ^ i)).Pairwise (· < ·)))
    ∧ (1 ≤ maxR → maxR ≤ K →
        retry_with_backoff func maxR base =
          .ok ⟨Option.none, (List.range (maxR - 1)).map (fun i => base * 2 ^ i),
            maxR⟩) := by
  constructor
  · intro hlt
    constructor
    · have h := retryAux_success func maxR base v K 0 maxR
        (fun i hi => by rw [Nat.zero_add]; exact hK i hi)
        (by rwa [Nat.zero_add]) (by omega) (by omega)
      rw [retry_with_backoff, h]
      simp
    · intro hb
      refine (List.pairwise_lt_range K).map _ (fun i j hij => ?_)
      exact mul_lt_mul_of_pos_left (pow_lt_pow_right₀ (by norm_num) hij) hb
  · intro h1 h2
    have h := retryAux_exhaust func maxR base maxR 0
      (fun i _ hi => hK i (by omega)) (by omega) (by omega)
    rw [retry_with_backoff, h]
    simp

/-- The C2 witness callable: two rate-limited failures, then `42`. -/
def c2Func : Nat → PyResult Nat :=
  fun i => if i < 2 then .exn "rate limited" else .ok 42

/-- C2 witness: the theorem applied to `c2Func` with `max_retries = 4` and
`base_delay = 1`: the value is returned after two sleeps of 1 and 2
seconds. -/
theorem claim_C2_retry_rate_limited_witness :
    retry_with_backoff c2Func 4 1 = .ok ⟨some 42, [1, 2], 3⟩ := by
  have h := (claim_C2_retry_rate_limited c2Func 2 42 4 1
    (fun i hi => ⟨"rate limited", by simp [c2Func, hi], by decide⟩)
    (by simp [c2Func])).1 (by omega)
  rw [h.1]
  have hl : ((List.range 2).map fun i => (1 : ℚ) * 2 ^ i) = [1, 2] := by
    simp [List.range_succ]
  rw [hl]

/-- Every run of the retry loop completes normally: the `except Exception`
of the source covers the whole body, so no exception escapes. -/
theorem retryAux_ok (g : Nat → PyResult β) (mr : Nat) (b : ℚ) :
    ∀ fuel attempt : Nat, ∃ t, retryAux g mr b fuel attempt = .ok t := by
  intro fuel
  induction fuel with
  | zero => exact fun _ => ⟨_, rfl⟩
  | succ f ih =>
    intro attempt
    simp only [retryAux]
    rcases hg : g attempt with v | e
    · exact ⟨_, rfl⟩
    · by_cases hrl : isRateLimited e = true
      · simp only [hrl, if_true]
        by_cases hc : attempt < mr - 1
        · rw [if_pos hc]
          obtain ⟨t, ht⟩ := ih (attempt + 1)
          rw [ht]
          exact ⟨_, rfl⟩
        · rw [if_neg hc]
          exact ⟨_, rfl⟩
      · rw [Bool.not_eq_true] at hrl
        simp only [hrl]
        exact ⟨_, rfl⟩

/-- C3: a callable whose first invocation raises a non-rate-limit-shaped
error makes the policy return absent after exactly one invocation and with
no sleep; and for every callable and budget, the policy completes normally —
no exception propagates to the caller. -/
theorem claim_C3_retry_non_rate_limit (func : Nat → PyResult α) (m : String)
    (maxR : Nat) (base : ℚ) (h1 : func 0 = .exn m) (h2 : isRateLimited m = false)
    (h3 : 1 ≤ maxR) :
    retry_with_backoff func maxR base = .ok ⟨Option.none, [], 1⟩
    ∧ ∀ (β : Type) (g : Nat → PyResult β) (mr : Nat) (b : ℚ),
        ∃ t, retry_with_backoff g mr b = .ok t := by
  constructor
  · obtain ⟨f, hf⟩ : ∃ f, maxR = f + 1 := ⟨maxR - 1, by omega⟩
    rw [retry_with_backoff, hf]
    simp only [retryAux]
    rw [h1]
    simp only [h2]
    rfl
  · intro β g mr b
    exact retryAux_ok g mr b mr 0

/-- C3 witness: the theorem applied to a callable that always raises
`"boom"`, with `max_retries = 3`. -/
theorem claim_C3_retry_non_rate_limit_witness :
    retry_with_backoff (fun _ => (PyResult.exn "boom" : PyResult Nat)) 3 1 =
      .ok ⟨Option.none, [], 1⟩ :=
  (claim_C3_retry_non_rate_limit (fun _ => (PyResult.exn "boom" : PyResult Nat))
    "boom" 3 1 rfl (by decide) (by omega)).1

/-! ## C5: `safe_float` -/

/-- Digit characters are decimal digits. -/
theorem digChar_isDigit : ∀ d : Fin 10, (digChar d).isDigit = true := by decide

/-- The digit value of a digit character. -/
theorem digChar_toNat : ∀ d : Fin 10, (digChar d).toNat - 48 = d.val := by decide

/-- Digit characters are not whitespace. -/
theorem digChar_not_ws : ∀ d : Fin 10, (digChar d).isWhitespace = false := by decide

/-- Digit characters are none of the special characters of the grammar. -/
theorem digChar_ne : ∀ d : Fin 10, digChar d ≠ '-' ∧ digChar d ≠ '+' ∧
    digChar d ≠ ',' ∧ digChar d ≠ '.' := by decide

/-- `takeDigits` consumes exactly a rendered digit block when the remainder
does not start with a digit. -/
theorem takeDigits_digits (ds : List (Fin 10)) (rest : List Char)
    (h : ∀ c, rest.head? = some c → c.isDigit = false) :
    takeDigits (ds.map digChar ++ rest) = (ds.map Fin.val, rest) := by
  induction ds with
  | nil =>
    cases rest with
    | nil => rfl
    | cons c t =>
      have hc := h c rfl
      simp [takeDigits, hc]
  | cons d ds ih =>
    have hstep : takeDigits (digChar d :: (List.map digChar ds ++ rest)) =
        (((digChar d).toNat - 48) :: (takeDigits (List.map digChar ds ++ rest)).1,
          (takeDigits (List.map digChar ds ++ rest)).2) := by
      simp only [takeDigits, digChar_isDigit d, if_true]
    rw [List.map_cons, List.cons_append, hstep, ih]
    simp [digChar_toNat d]

/-- Stripping leaves a whitespace-free character list unchanged. -/
theorem stripChars_of_no_ws (l : List Char) (h : ∀ c ∈ l, c.isWhitespace = false) :
    stripChars l = l := by
  have hd : ∀ l' : List Char, (∀ c ∈ l', c.isWhitespace = false) →
      dropLeadWs l' = l' := by
    intro l' h'
    cases l' with
    | nil => rfl
    | cons c t => simp [dropLeadWs, h' c (by simp)]
  rw [stripChars, hd l h, hd _ (fun c hc => h c (List.mem_reverse.mp hc)),
    List.reverse_reverse]

/-- The parser inverts the decimal renderer (sign-free case). -/
theorem pyFloatCore_digits (ip fp : List (Fin 10)) (hip : ip ≠ []) :
    pyFloatCore (ip.map digChar ++ '.' :: fp.map digChar) =
      some (mantVal (ip.map Fin.val) (fp.map Fin.val)) := by
  obtain ⟨d0, ip', rfl⟩ : ∃ d0 ip', ip = d0 :: ip' := by
    cases ip with
    | nil => exact absurd rfl hip
    | cons a b => exact ⟨a, b, rfl⟩
  have hsn : splitSign ((d0 :: ip').map digChar ++ '.' :: fp.map digChar) =
      (false, (d0 :: ip').map digChar ++ '.' :: fp.map digChar) := by
    simp only [List.map_cons, List.cons_append, splitSign]
    rw [if_neg (digChar_ne d0).1, if_neg (digChar_ne d0).2.1]
  have htd1 : takeDigits ((d0 :: ip').map digChar ++ '.' :: fp.map digChar) =
      ((d0 :: ip').map Fin.val, '.' :: fp.map digChar) :=
    takeDigits_digits _ _ (fun c hc => by
      injection hc with hc
      rw [← hc]
      rfl)
  have htd2 : takeDigits (fp.map digChar) = (fp.map Fin.val, []) := by
    rw [show (fp.map digChar : List Char) = fp.map digChar ++ [] from
      (List.append_nil _).symm]
    exact takeDigits_digits _ _ (fun c hc => absurd hc (by simp))
  simp only [pyFloatCore, hsn, htd1, htd2, eq_self_iff_true, if_true]
  rw [if_neg (fun hand => hip (List.map_eq_nil_iff.mp hand.1))]
  rfl

/-- The parser inverts the decimal renderer (negative case). -/
theorem pyFloatCore_neg_digits (ip fp : List (Fin 10)) (hip : ip ≠ []) :
    pyFloatCore ('-' :: (ip.map digChar ++ '.' :: fp.map digChar)) =
      some (-mantVal (ip.map Fin.val) (fp.map Fin.val)) := by
  obtain ⟨d0, ip', rfl⟩ : ∃ d0 ip', ip = d0 :: ip' := by
    cases ip with
    | nil => exact absurd rfl hip
    | cons a b => exact ⟨a, b, rfl⟩
  have hsn : splitSign ('-' :: ((d0 :: ip').map digChar ++ '.' :: fp.map digChar)) =
      (true, (d0 :: ip').map digChar ++ '.' :: fp.map digChar) := by
    simp [splitSign]
  have htd1 : takeDigits ((d0 :: ip').map digChar ++ '.' :: fp.map digChar) =
      ((d0 :: ip').map Fin.val, '.' :: fp.map digChar) :=
    takeDigits_digits _ _ (fun c hc => by
      injection hc with hc
      rw [← hc]
      rfl)
  have htd2 : takeDigits (fp.map digChar) = (fp.map Fin.val, []) := by
    rw [show (fp.map digChar : List Char) = fp.map digChar ++ [] from
      (List.append_nil _).symm]
    exact takeDigits_digits _ _ (fun c hc => absurd hc (by simp))
  simp only [pyFloatCore, hsn, htd1, htd2, eq_self_iff_true, if_true]
  rw [if_neg (fun hand => hip (List.map_eq_nil_iff.mp hand.1))]
  rfl

/-- The character list of a rendered decimal string. -/
theorem decString_toList (neg : Bool) (ip fp : List (Fin 10)) :
    (decString neg ip fp).toList =
      (if neg then ['-'] else []) ++ ip.map digChar ++ '.' :: fp.map digChar := rfl

/-- Every character of a rendered decimal string. -/
theorem decString_chars (neg : Bool) (ip fp : List (Fin 10)) :
    ∀ c ∈ (decString neg ip fp).toList,
      c = '-' ∨ c = '.' ∨ ∃ d : Fin 10, c = digChar d := by
  intro c hc
  rw [decString_toList] at hc
  simp only [List.mem_append, List.mem_cons, List.mem_map] at hc
  rcases hc with (hneg | ⟨d, _, rfl⟩) | hdot | ⟨d, _, rfl⟩
  · cases neg with
    | true => simp at hneg; exact Or.inl hneg
    | false => simp at hneg
  · exact Or.inr (Or.inr ⟨d, rfl⟩)
  · exact Or.inr (Or.inl hdot)
  · exact Or.inr (Or.inr ⟨d, rfl⟩)

/-- C5's positive half on rendered decimal strings: `safe_float` returns the
exact rational value of `[-]ip.fp`. -/
theorem safe_float_decString (neg : Bool) (ip fp : List (Fin 10)) (hip : ip ≠ []) :
    safe_float (.str (decString neg ip fp)) = some (decVal neg ip fp) := by
  have hnws : ∀ c ∈ (decString neg ip fp).toList, c.isWhitespace = false := by
    intro c hc
    rcases decString_chars neg ip fp c hc with rfl | rfl | ⟨d, rfl⟩
    · rfl
    · rfl
    · exact digChar_not_ws d
  have hstrip : stripChars (decString neg ip fp).toList =
      (decString neg ip fp).toList := stripChars_of_no_ws _ hnws
  have hdot : '.' ∈ (decString neg ip fp).toList := by
    rw [decString_toList]
    simp
  have hne : (decString neg ip fp).toList ≠ [] := by
    intro h
    rw [h] at hdot
    exact absurd hdot (List.not_mem_nil '.')
  have hNA : ((decString neg ip fp).toList).map Char.toUpper ≠ ['N', 'A'] := by
    intro h
    have hmem : '.'.toUpper ∈ ((decString neg ip fp).toList).map Char.toUpper :=
      List.mem_map_of_mem Char.toUpper hdot
    rw [h, show '.'.toUpper = '.' from rfl] at hmem
    simp at hmem
  have hfil : ((decString neg ip fp).toList).filter (fun c => ¬ (c = ',')) =
      (decString neg ip fp).toList := by
    refine List.filter_eq_self.mpr fun c hc => ?_
    rcases decString_chars neg ip fp c hc with rfl | rfl | ⟨d, rfl⟩
    · decide
    · decide
    · simpa using (digChar_ne d).2.2.1
  show (if stripChars (decString neg ip fp).toList = []
        ∨ (stripChars (decString neg ip fp).toList).map Char.toUpper = ['N', 'A']
      then Option.none
      else pyFloatCore ((stripChars (decString neg ip fp).toList).filter
        (fun c => ¬ (c = ',')))) = some (decVal neg ip fp)
  rw [hstrip, if_neg (not_or.mpr ⟨hne, hNA⟩), hfil, decString_toList]
  cases neg with
  | false =>
    rw [show ((if false then ['-'] else []) ++ ip.map digChar ++ '.' :: fp.map digChar)
        = ip.map digChar ++ '.' :: fp.map digChar from rfl]
    rw [pyFloatCore_digits ip fp hip]
    rfl
  | true =>
    rw [show ((if true then ['-'] else []) ++ ip.map digChar ++ '.' :: fp.map digChar)
        = '-' :: (ip.map digChar ++ '.' :: fp.map digChar) from rfl]
    rw [pyFloatCore_neg_digits ip fp hip]
    rfl

/-- C5: `safe_float` is total over every input shape and never raises:
`None` yields absent; ints, floats and bools pass through exactly; strings
that strip to blank or a case-insensitive `"NA"` yield absent; every plain
decimal string (optionally signed, after removing thousands-separator
commas) yields its exact rational value; unparsable strings yield absent. -/
theorem claim_C5_safe_float_total :
    safe_float PyVal.none = Option.none
    ∧ (∀ n : ℤ, safe_float (.int n) = some (n : ℚ))
    ∧ (∀ q : ℚ, safe_float (.float q) = some q)
    ∧ (∀ b : Bool, safe_float (.bool b) = some (if b then 1 else 0))
    ∧ (∀ s : String, stripChars s.toList = [] → safe_float (.str s) = Option.none)
    ∧ (∀ s : String, (stripChars s.toList).map Char.toUpper = ['N', 'A'] →
        safe_float (.str s) = Option.none)
    ∧ (∀ (neg : Bool) (ip fp : List (Fin 10)), ip ≠ [] →
        safe_float (.str (decString neg ip fp)) = some (decVal neg ip fp))
    ∧ safe_float (.str "1,234.5") = some (2469 / 2)
    ∧ safe_float (.str "abc") = Option.none := by
  refine ⟨rfl, fun n => rfl, fun q => rfl, fun b => rfl, ?_, ?_,
    safe_float_decString, ?_, ?_⟩
  · intro s h
    show (if stripChars s.toList = []
          ∨ (stripChars s.toList).map Char.toUpper = ['N', 'A'] then Option.none
        else pyFloatCore ((stripChars s.toList).filter (fun c => ¬ (c = ',')))) =
        Option.none
    rw [if_pos (Or.inl h)]
  · intro s h
    show (if stripChars s.toList = []
          ∨ (stripChars s.toList).map Char.toUpper = ['N', 'A'] then Option.none
        else pyFloatCore ((stripChars s.toList).filter (fun c => ¬ (c = ',')))) =
        Option.none
    rw [if_pos (Or.inr h)]
  · simp +decide [safe_float, stripChars, dropLeadWs, pyFloatCore, splitSign,
      takeDigits, parseExpEnd, mantVal, digitsValN, String.toList]
    norm_num
  · decide

/-- C5 witness: the theorem applied at concrete inputs of each shape,
including the rendered decimal `"-12.5"`. -/
theorem claim_C5_safe_float_total_witness :
    safe_float (.int 5) = some 5
    ∧ safe_float (.str "   ") = Option.none
    ∧ safe_float (.str " na ") = Option.none
    ∧ safe_float (.str (decString true [1, 2] [5])) = some (decVal true [1, 2] [5])
    ∧ decString true [1, 2] [5] = "-12.5"
    ∧ decVal true [1, 2] [5] = -(25 / 2) := by
  obtain ⟨h1, h2, h3, h4, h5, h6, h7, h8, h9⟩ := claim_C5_safe_float_total
  refine ⟨?_, h5 "   " (by decide), h6 " na " (by decide),
    h7 true [1, 2] [5] (by decide), by decide, ?_⟩
  · rw [h2 5]
    norm_num
  · simp only [decVal, mantVal]
    rw [show digitsValN (List.map Fin.val [1, 2]) = 12 by decide,
      show digitsValN (List.map Fin.val [(5 : Fin 10)]) = 5 by decide,
      show (List.map Fin.val [(5 : Fin 10)]).length = 1 by decide]
    norm_num

/-! ## C6 and C10: the batch orchestrator -/

/-- `chunksF` does not depend on the fuel once it covers the list length. -/
theorem chunksF_congr (bs : Nat) (hbs : 1 ≤ bs) :
    ∀ (fuel fuel' : Nat) (l : List α), l.length ≤ fuel → l.length ≤ fuel' →
      chunksF bs fuel l = chunksF bs fuel' l := by
  intro fuel
  induction fuel with
  | zero =>
    intro fuel' l h _h'
    have hl : l = [] := List.eq_nil_of_length_eq_zero (by omega)
    subst hl
    cases fuel' <;> rfl
  | succ f ih =>
    intro fuel' l h h'
    cases l with
    | nil => cases fuel' <;> rfl
    | cons x xs =>
      obtain ⟨f', rfl⟩ : ∃ k, fuel' = k + 1 := ⟨fuel' - 1, by simp at h'; omega⟩
      simp only [chunksF]
      congr 1
      apply ih
      · rw [List.length_drop]
        simp at h ⊢
        omega
      · rw [List.length_drop]
        simp at h' ⊢
        omega

/-- `chunks` of the empty list. -/
theorem chunks_nil (bs : Nat) : chunks bs ([] : List α) = [] := by
  unfold chunks
  split <;> rfl

/-- The unfolding of `chunks` on a nonempty list (one loop iteration of
`for i in range(0, len, bs)`). -/
theorem chunks_cons (bs : Nat) (hbs : 1 ≤ bs) (x : α) (xs : List α) :
    chunks bs (x :: xs) =
      (x :: xs).take bs :: chunks bs ((x :: xs).drop bs) := by
  unfold chunks
  rw [if_neg (by omega), if_neg (by omega)]
  rw [show (x :: xs).length = xs.length + 1 from rfl]
  simp only [chunksF]
  congr 1
  apply chunksF_congr bs hbs
  · rw [List.length_drop]
    simp
    omega
  · exact le_rfl

/-- C6 part: the batches concatenate back to the input, in order. -/
theorem chunks_flatten (bs : Nat) (hbs : 1 ≤ bs) :
    ∀ (n : Nat) (l : List α), l.length = n → (chunks bs l).flatten = l := by
  intro n
  induction n using Nat.strong_induction_on with
  | _ n ih =>
    intro l hl
    cases l with
    | nil => rw [chunks_nil]; rfl
    | cons x xs =>
      rw [chunks_cons bs hbs, List.flatten_cons]
      rw [ih ((x :: xs).drop bs).length (by rw [List.length_drop]; simp at hl ⊢; omega)
        _ rfl]
      exact List.take_append_drop bs (x :: xs)

/-- C6 part: every batch has size at most `bs`. -/
theorem chunks_size_le (bs : Nat) (hbs : 1 ≤ bs) :
    ∀ (n : Nat) (l : List α), l.length = n → ∀ c ∈ chunks bs l, c.length ≤ bs := by
  intro n
  induction n using Nat.strong_induction_on with
  | _ n ih =>
    intro l hl c hc
    cases l with
    | nil => rw [chunks_nil] at hc; exact absurd hc (List.not_mem_nil c)
    | cons x xs =>
      rw [chunks_cons bs hbs] at hc
      rcases List.mem_cons.mp hc with rfl | hc
      · rw [List.length_take]
        omega
      · exact ih ((x :: xs).drop bs).length
          (by rw [List.length_drop]; simp at hl ⊢; omega) _ rfl c hc

/-- C6 part: there are `⌈n / bs⌉` batches. -/
theorem chunks_length (bs : Nat) (hbs : 1 ≤ bs) :
    ∀ (n : Nat) (l : List α), l.length = n →
      (chunks bs l).length = (l.length + bs - 1) / bs := by
  intro n
  induction n using Nat.strong_induction_on with
  | _ n ih =>
    intro l hl
    cases l with
    | nil =>
      rw [chunks_nil]
      show 0 = (0 + bs - 1) / bs
      rw [Nat.div_eq_of_lt (by omega)]
    | cons x xs =>
      simp only [List.length_cons] at hl
      rw [chunks_cons bs hbs, List.length_cons]
      rw [ih ((x :: xs).drop bs).length
        (by rw [List.length_drop, List.length_cons]; omega) _ rfl]
      rw [List.length_drop, List.length_cons]
      by_cases hle : xs.length + 1 ≤ bs
      · rw [show xs.length + 1 - bs = 0 by omega]
        rw [Nat.div_eq_of_lt (by omega)]
        have hdiv : (xs.length + 1 + bs - 1) / bs = 1 :=
          Nat.div_eq_of_lt_le (by omega) (by omega)
        rw [hdiv]
      · rw [show xs.length + 1 + bs - 1 = (xs.length + 1 - bs + bs - 1) + bs by omega,
          Nat.add_div_right _ (by omega)]

/-- `chunks` of a nonempty list is nonempty. -/
theorem chunks_ne_nil (bs : Nat) (hbs : 1 ≤ bs) (x : α) (xs : List α) :
    chunks bs (x :: xs) ≠ [] := by
  rw [chunks_cons bs hbs]
  exact List.cons_ne_nil _ _

/-- The length of a `filterMap` counts the successes. -/
theorem length_filterMap_eq_countP (f : α → Option β) (l : List α) :
    (l.filterMap f).length = l.countP (fun a => (f a).isSome) := by
  induction l with
  | nil => rfl
  | cons a t ih =>
    rw [List.filterMap_cons, List.countP_cons]
    cases hf : f a with
    | none => simp [ih]
    | some r => simp [ih]

/-- Mapping the symbol back out of a `filterMap` whose values carry their
argument gives exactly the successful arguments. -/
theorem filterMap_map_of_sym (f : α → Option ρ) (g : ρ → α)
    (hf : ∀ s r, f s = some r → g r = s) (l : List α) :
    (l.filterMap f).map g = l.filter (fun s => (f s).isSome) := by
  induction l with
  | nil => rfl
  | cons a t ih =>
    rw [List.filterMap_cons, List.filter_cons]
    cases hfa : f a with
    | none => simp only [Option.isSome_none, Bool.false_eq_true, if_false]; exact ih
    | some r =>
      simp only [Option.isSome_some, if_true, List.map_cons]
      rw [ih, hf a r hfa]

/-- Total number of collected rows across the batches. -/
theorem goBatches_rows_length (f : String → Option ρ)
    (comp : Nat → List String → List String)
    (hcomp : ∀ j b, List.Perm (comp j b) b) :
    ∀ (L : List (List String)) (j : Nat),
      (goBatches f comp j L).1.length =
        (L.map (fun b => b.countP (fun s => (f s).isSome))).sum := by
  intro L
  induction L with
  | nil => intro j; rfl
  | cons b rest ih =>
    intro j
    simp only [goBatches, List.length_append, List.map_cons, List.sum_cons]
    rw [ih (j + 1)]
    congr 1
    rw [length_filterMap_eq_countP]
    exact (hcomp j b).countP_eq _

/-- The collected rows' symbols are a permutation of the successfully
fetched input symbols. -/
theorem goBatches_rows_perm (f : String → Option ρ) (g : ρ → String)
    (hf : ∀ s r, f s = some r → g r = s)
    (comp : Nat → List String → List String)
    (hcomp : ∀ j b, List.Perm (comp j b) b) :
    ∀ (L : List (List String)) (j : Nat),
      List.Perm ((goBatches f comp j L).1.map g)
        (L.flatten.filter (fun s => (f s).isSome)) := by
  intro L
  induction L with
  | nil => intro j; rfl
  | cons b rest ih =>
    intro j
    simp only [goBatches, List.map_append, List.flatten_cons, List.filter_append]
    refine List.Perm.append ?_ (ih (j + 1))
    rw [filterMap_map_of_sym f g hf]
    exact (hcomp j b).filter _

/-- One inter-batch sleep per batch except the last. -/
theorem goBatches_sleeps (f : String → Option ρ)
    (comp : Nat → List String → List String) :
    ∀ (L : List (List String)) (j : Nat), L ≠ [] →
      (goBatches f comp j L).2 = L.length - 1 := by
  intro L
  induction L with
  | nil => intro j h; exact absurd rfl h
  | cons b rest ih =>
    intro j _
    simp only [goBatches]
    cases rest with
    | nil => rfl
    | cons r rs =>
      have h := ih (j + 1) (List.cons_ne_nil r rs)
      simp only [List.cons_ne_nil, if_false] at h ⊢
      rw [h]
      simp
      omega

/-- Counting over the flattened batches. -/
theorem sum_map_count_flatten (s : String) :
    ∀ L : List (List String), (L.map (fun b => b.count s)).sum = L.flatten.count s := by
  intro L
  induction L with
  | nil => rfl
  | cons b rest ih =>
    simp only [List.map_cons, List.sum_cons, List.flatten_cons, List.count_append]
    rw [ih]

/-- A row produced by `_fetch_one` carries the symbol it was called with. -/
theorem fetch_one_symbol (nse : String → Option (List (String × PyVal)))
    (vol : String → VolStats) (hist : String → Option ℚ × Option ℚ × Option ℚ)
    (s : String) (r : StockData) (h : fetch_one nse vol hist s = some r) :
    r.symbol = s := by
  unfold fetch_one at h
  cases hg : get_fundamentals (nse s) with
  | none => rw [hg] at h; exact absurd h (by simp)
  | some f =>
    rw [hg] at h
    injection h with h
    rw [← h]

/-- C6: with batch size `bs ≥ 1` and any per-batch completion orders, the
orchestrator partitions the input into `⌈n / bs⌉` contiguous batches of size
at most `bs` whose concatenation is the input (so every symbol is in exactly
one batch, in order); it sleeps after every batch except the last; and the
number of output rows equals the number of symbols whose per-symbol fetch
succeeded (failures are dropped). -/
theorem claim_C6_batch_orchestration
    (nse : String → Option (List (String × PyVal))) (vol : String → VolStats)
    (hist : String → Option ℚ × Option ℚ × Option ℚ)
    (comp : Nat → List String → List String) (symbols : List String) (bs : Nat)
    (hbs : 1 ≤ bs) (hcomp : ∀ j b, List.Perm (comp j b) b) :
    (chunks bs symbols).flatten = symbols
    ∧ (∀ c ∈ chunks bs symbols, c.length ≤ bs)
    ∧ (chunks bs symbols).length = (symbols.length + bs - 1) / bs
    ∧ (symbols ≠ [] →
        (fetch_stocks_data_for_industry (fetch_one nse vol hist) comp bs symbols).2 =
          (chunks bs symbols).length - 1)
    ∧ (fetch_stocks_data_for_industry (fetch_one nse vol hist) comp bs symbols).1.length =
        symbols.countP (fun s => (fetch_one nse vol hist s).isSome) := by
  refine ⟨chunks_flatten bs hbs _ symbols rfl, chunks_size_le bs hbs _ symbols rfl,
    chunks_length bs hbs _ symbols rfl, ?_, ?_⟩
  · intro hne
    cases symbols with
    | nil => exact absurd rfl hne
    | cons x xs =>
      exact goBatches_sleeps _ comp (chunks bs (x :: xs)) 0 (chunks_ne_nil bs hbs x xs)
  · rw [fetch_stocks_data_for_industry,
      goBatches_rows_length (fetch_one nse vol hist) comp hcomp (chunks bs symbols) 0]
    have hjoin := chunks_flatten bs hbs _ symbols rfl
    calc ((chunks bs symbols).map
            (fun b => b.countP (fun s => (fetch_one nse vol hist s).isSome))).sum
        = (chunks bs symbols).flatten.countP
            (fun s => (fetch_one nse vol hist s).isSome) := by
          induction chunks bs symbols with
          | nil => rfl
          | cons b rest ih =>
            simp only [List.map_cons, List.sum_cons, List.flatten_cons,
              List.countP_append]
            rw [ih]
      _ = symbols.countP (fun s => (fetch_one nse vol hist s).isSome) := by rw [hjoin]

/-- C10: every output row's `SYMBOL` field is one of the input symbols; with
distinct input symbols each symbol contributes at most one row (the rows'
symbols are distinct); and each symbol is placed in the batches exactly as
often as it occurs in the input — in particular exactly once when the input
has no duplicates. -/
theorem claim_C10_symbol_invariants
    (nse : String → Option (List (String × PyVal))) (vol : String → VolStats)
    (hist : String → Option ℚ × Option ℚ × Option ℚ)
    (comp : Nat → List String → List String) (symbols : List String) (bs : Nat)
    (hbs : 1 ≤ bs) (hcomp : ∀ j b, List.Perm (comp j b) b) :
    (∀ r ∈ (fetch_stocks_data_for_industry (fetch_one nse vol hist) comp bs symbols).1,
        r.symbol ∈ symbols)
    ∧ (symbols.Nodup →
        ((fetch_stocks_data_for_industry (fetch_one nse vol hist) comp bs symbols).1.map
          StockData.symbol).Nodup)
    ∧ (∀ s : String,
        ((chunks bs symbols).map (fun b => b.count s)).sum = symbols.count s) := by
  have hperm := goBatches_rows_perm (fetch_one nse vol hist) StockData.symbol
    (fetch_one_symbol nse vol hist) comp hcomp (chunks bs symbols) 0
  have hjoin := chunks_flatten bs hbs _ symbols rfl
  rw [hjoin] at hperm
  refine ⟨?_, ?_, ?_⟩
  · intro r hr
    have hmem : r.symbol ∈
        (fetch_stocks_data_for_industry (fetch_one nse vol hist) comp bs symbols).1.map
          StockData.symbol := List.mem_map_of_mem StockData.symbol hr
    have := hperm.subset hmem
    exact List.mem_of_mem_filter this
  · intro hnd
    exact hperm.nodup_iff.mpr (hnd.filter _)
  · intro s
    rw [sum_map_count_flatten s (chunks bs symbols), hjoin]

/-- The C6/C10 witness fixture: five symbols, two of which (`"A"`, `"C"`)
have quote data, a reversing completion order, batch size 2. -/
def nse0 : String → Option (List (String × PyVal)) := fun s =>
  if s = "A" ∨ s = "C" then
    some [("priceInfo", PyVal.dict [("lastPrice", PyVal.float 10)])]
  else Option.none

/-- Witness volume accessor: everything absent. -/
def vol0 : String → VolStats := fun _ => ⟨Option.none, Option.none, Option.none⟩

/-- Witness historical accessor: everything absent. -/
def hist0 : String → Option ℚ × Option ℚ × Option ℚ :=
  fun _ => (Option.none, Option.none, Option.none)

/-- Witness completion order: each batch completes in reverse order. -/
def comp0 : Nat → List String → List String := fun _ b => b.reverse

/-- Witness symbol list. -/
def syms5 : List String := ["A", "B", "C", "D", "E"]

/-- C6 witness: the theorem applied to the fixture — 3 batches, 2 sleeps,
and 2 output rows (for the 2 fetchable symbols). -/
theorem claim_C6_batch_orchestration_witness :
    (chunks 2 syms5).flatten = syms5
    ∧ (chunks 2 syms5).length = 3
    ∧ (fetch_stocks_data_for_industry (fetch_one nse0 vol0 hist0) comp0 2 syms5).2 = 2
    ∧ (fetch_stocks_data_for_industry (fetch_one nse0 vol0 hist0) comp0 2 syms5).1.length
        = 2 := by
  have h := claim_C6_batch_orchestration nse0 vol0 hist0 comp0 syms5 2 (by omega)
    (fun j b => b.reverse_perm)
  refine ⟨h.1, ?_, ?_, ?_⟩
  · rw [h.2.2.1]
    decide
  · rw [h.2.2.2.1 (by decide)]
    decide
  · rw [h.2.2.2.2]
    decide

/-- C10 witness: the theorem applied to the fixture — distinct output
symbols, each drawn from the input, and `"C"` appears in exactly one
batch. -/
theorem claim_C10_symbol_invariants_witness :
    ((fetch_stocks_data_for_industry (fetch_one nse0 vol0 hist0) comp0 2 syms5).1.map
      StockData.symbol).Nodup
    ∧ ((chunks 2 syms5).map (fun b => b.count "C")).sum = 1 := by
  have h := claim_C10_symbol_invariants nse0 vol0 hist0 comp0 syms5 2 (by omega)
    (fun j b => b.reverse_perm)
  refine ⟨h.2.1 (by decide), ?_⟩
  rw [h.2.2 "C"]
  decide

end AksMarket

